import Mathlib

/-!
Verification of the `functions` astrodynamics library (ALFs, inclination
functions, normalization constants).

The C++ engines fill raw `double` arrays in strict program order.  We model an
array as a total function `ℕ → ℝ` and a constructor body as a list of writes
executed left to right (`runW`), each write carrying its target index and a
value computed from the array contents at the moment of the write.  This keeps
the embedding faithful to the imperative source, including overwrites.
Doubles are modelled as real numbers.
-/

namespace Functions

/-- One array write: a target index and a value computed from the current
array contents. -/
structure Wr where
  tgt : ℕ
  val : (ℕ → ℝ) → ℝ

/-- Execute a list of writes in program order. -/
def runW : List Wr → (ℕ → ℝ) → ℕ → ℝ
  | [], s => s
  | w :: ws, s => runW ws (Function.update s w.tgt (w.val s))

theorem runW_nil (s : ℕ → ℝ) : runW [] s = s := rfl

theorem runW_cons (w : Wr) (ws : List Wr) (s : ℕ → ℝ) :
    runW (w :: ws) s = runW ws (Function.update s w.tgt (w.val s)) := rfl

theorem runW_append (l1 l2 : List Wr) (s : ℕ → ℝ) :
    runW (l1 ++ l2) s = runW l2 (runW l1 s) := by
  induction l1 generalizing s with
  | nil => rfl
  | cons w ws ih => simp [runW_cons, ih]

/-- Frame rule: a run that never writes index `j` leaves slot `j` unchanged. -/
theorem runW_frame {l : List Wr} {j : ℕ} (h : ∀ w ∈ l, w.tgt ≠ j) (s : ℕ → ℝ) :
    runW l s j = s j := by
  induction l generalizing s with
  | nil => rfl
  | cons w ws ih =>
    rw [runW_cons, ih fun w2 hw2 => h w2 (List.mem_cons_of_mem _ hw2)]
    exact Function.update_noteq (Ne.symm (h w (List.mem_cons_self _ _))) _ _

/-- The final content of a slot is the value of its last write, computed in
the state just before that write. -/
theorem runW_last (l1 : List Wr) (w : Wr) (l2 : List Wr) (s : ℕ → ℝ)
    (h : ∀ w2 ∈ l2, w2.tgt ≠ w.tgt) :
    runW (l1 ++ w :: l2) s w.tgt = w.val (runW l1 s) := by
  rw [runW_append, runW_cons, runW_frame h, Function.update_same]

/-- A slot not written by the suffix keeps its value from the prefix. -/
theorem runW_stable (l1 l2 : List Wr) (s : ℕ → ℝ) {j : ℕ}
    (h : ∀ w ∈ l2, w.tgt ≠ j) :
    runW (l1 ++ l2) s j = runW l1 s j := by
  rw [runW_append, runW_frame h]

/-! ### Packed index functions (from `Nlm::lm_idx`, `Plm::lm_idx`,
`Flmp::l_idx`, `Flmp::lmp_idx`, `Flmp::lmk_idx`) -/

/-- `lm_idx(l, m) = l*(l+1)/2 + m` (triangular packing). -/
def lm_idx (l m : ℕ) : ℕ := l * (l + 1) / 2 + m

/-- `l_idx(l) = l*(l+1)*(2l+1)/6`: storage offset where degree `l` begins. -/
def l_idx (l : ℕ) : ℕ := l * (l + 1) * (2 * l + 1) / 6

/-- `lmp_idx(l, m, p) = (l+1)*(l*(2l+1))/6 + m*(l+1) + p` (pyramidal packing). -/
def lmp_idx (l m p : ℕ) : ℕ := (l + 1) * (l * (2 * l + 1)) / 6 + m * (l + 1) + p

theorem triangle_succ (l : ℕ) :
    (l + 1) * (l + 2) / 2 = l * (l + 1) / 2 + (l + 1) := by
  have h : (l + 1) * (l + 2) = l * (l + 1) + (l + 1) * 2 := by ring
  rw [h, Nat.add_mul_div_right _ _ (by norm_num : (0:ℕ) < 2)]

theorem tri_mono {a b : ℕ} (h : a ≤ b) : a * (a + 1) / 2 ≤ b * (b + 1) / 2 :=
  Nat.div_le_div_right (Nat.mul_le_mul h (Nat.succ_le_succ h))

theorem lm_idx_strict {l m l2 m2 : ℕ} (hm : m ≤ l) (h : l < l2) (_ : m2 ≤ l2) :
    lm_idx l m < lm_idx l2 m2 := by
  have h2 : (l + 1) * (l + 2) / 2 ≤ l2 * (l2 + 1) / 2 :=
    tri_mono (Nat.succ_le_of_lt h)
  have h3 : (l + 1) * (l + 2) / 2 = l * (l + 1) / 2 + (l + 1) := triangle_succ l
  unfold lm_idx
  omega

theorem lm_idx_inj {l m l2 m2 : ℕ} (hm : m ≤ l) (hm2 : m2 ≤ l2)
    (h : lm_idx l m = lm_idx l2 m2) : l = l2 ∧ m = m2 := by
  rcases Nat.lt_trichotomy l l2 with hlt | heq | hgt
  · exact absurd h (Nat.ne_of_lt (lm_idx_strict hm hlt hm2))
  · subst heq
    unfold lm_idx at h
    omega
  · exact absurd h.symm (Nat.ne_of_lt (lm_idx_strict hm2 hgt hm))

theorem lm_idx_ne {l m l2 m2 : ℕ} (hm : m ≤ l) (hm2 : m2 ≤ l2)
    (h : ¬(l = l2 ∧ m = m2)) : lm_idx l m ≠ lm_idx l2 m2 :=
  fun he => h (lm_idx_inj hm hm2 he)

theorem lmp_idx_base (l : ℕ) : lmp_idx l 0 0 = l_idx l := by
  unfold lmp_idx l_idx
  have h : (l + 1) * (l * (2 * l + 1)) = l * (l + 1) * (2 * l + 1) := by ring
  simp [h]

theorem l_idx_succ (l : ℕ) : l_idx (l + 1) = l_idx l + (l + 1) * (l + 1) := by
  unfold l_idx
  have h : (l + 1) * (l + 1 + 1) * (2 * (l + 1) + 1)
      = l * (l + 1) * (2 * l + 1) + (l + 1) * (l + 1) * 6 := by ring
  rw [h, Nat.add_mul_div_right _ _ (by norm_num : (0:ℕ) < 6)]

/-! ### Claim C5: the packed index maps enumerate a dense range -/

/-- Row-major enumeration of `lm_idx` over `0 ≤ m ≤ l ≤ L`. -/
def lm_enum (L : ℕ) : List ℕ :=
  (List.range (L + 1)).flatMap fun l =>
    (List.range (l + 1)).map fun m => lm_idx l m

/-- Row-major enumeration of `lmp_idx` over `0 ≤ p ≤ l`, `0 ≤ m ≤ l ≤ L`. -/
def lmp_enum (L : ℕ) : List ℕ :=
  (List.range (L + 1)).flatMap fun l =>
    (List.range (l + 1)).flatMap fun m =>
      (List.range (l + 1)).map fun p => lmp_idx l m p

theorem lm_enum_eq_range (L : ℕ) :
    lm_enum L = List.range ((L + 1) * (L + 2) / 2) := by
  induction L with
  | zero => rfl
  | succ n ih =>
    have h1 : (n + 1 + 1) * (n + 1 + 2) / 2 = (n + 1) * (n + 2) / 2 + (n + 2) :=
      triangle_succ (n + 1)
    unfold lm_enum at ih ⊢
    rw [List.range_succ, List.flatMap_append, ih, h1, List.range_add]
    simp [lm_idx]

theorem flat_block (w n base : ℕ) :
    ((List.range n).flatMap fun m => (List.range w).map fun p => base + m * w + p)
      = (List.range (n * w)).map fun j => base + j := by
  induction n with
  | zero => simp
  | succ k ih =>
    rw [List.range_succ, List.flatMap_append, ih]
    have h : (k + 1) * w = k * w + w := by ring
    rw [h, List.range_add, List.map_append, List.map_map]
    simp [Function.comp, Nat.add_assoc]

theorem lmp_block (l : ℕ) :
    ((List.range (l + 1)).flatMap fun m =>
        (List.range (l + 1)).map fun p => lmp_idx l m p)
      = (List.range ((l + 1) * (l + 1))).map fun j => l_idx l + j := by
  have h : ∀ m p, lmp_idx l m p = l_idx l + m * (l + 1) + p := by
    intro m p
    unfold lmp_idx l_idx
    have h2 : (l + 1) * (l * (2 * l + 1)) = l * (l + 1) * (2 * l + 1) := by ring
    rw [h2]
  simp only [h]
  exact flat_block (l + 1) (l + 1) (l_idx l)

theorem lmp_enum_eq_range (L : ℕ) : lmp_enum L = List.range (l_idx (L + 1)) := by
  induction L with
  | zero => rfl
  | succ n ih =>
    unfold lmp_enum at ih ⊢
    rw [List.range_succ, List.flatMap_append, ih]
    have h2 := lmp_block (n + 1)
    simp only [List.flatMap_cons, List.flatMap_nil, List.append_nil, h2]
    rw [l_idx_succ (n + 1), List.range_add]

/-- Claim C5: for every `L ≥ 0` the map `(l,m) ↦ lm_idx(l,m) = l(l+1)/2 + m`
restricted to `0 ≤ m ≤ l ≤ L`, enumerated in row-major order, produces exactly
the values `0, 1, …, (L+1)(L+2)/2 − 1` with no gaps or repeats; likewise
`(l,m,p) ↦ lmp_idx(l,m,p)` over `0 ≤ p ≤ l`, `0 ≤ m ≤ l ≤ L` produces exactly
`0, …, l_idx(L+1) − 1`, and each degree-`l` block starts at `l_idx(l)`. -/
theorem C5_index_bijections (L : ℕ) :
    lm_enum L = List.range ((L + 1) * (L + 2) / 2)
      ∧ lmp_enum L = List.range (l_idx (L + 1))
      ∧ ∀ l : ℕ, lmp_idx l 0 0 = l_idx l :=
  ⟨lm_enum_eq_range L, lmp_enum_eq_range L, lmp_idx_base⟩

/-! ### List splitting helpers -/

theorem range'_split {a n i : ℕ} (ha : a ≤ i) (hi : i < a + n) :
    List.range' a n
      = List.range' a (i - a) ++ i :: List.range' (i + 1) (a + n - i - 1) := by
  obtain ⟨c, hc⟩ : ∃ c, a + n - i = c + 1 := ⟨a + n - i - 1, by omega⟩
  have he : a + n - i - 1 = c := by omega
  rw [he]
  have h2 : i :: List.range' (i + 1) c = List.range' i (c + 1) :=
    (List.range'_succ i c 1).symm
  rw [h2]
  have h4 := List.range'_append_1 a (i - a) (c + 1)
  have h5 : a + (i - a) = i := by omega
  rw [h5] at h4
  rw [h4]
  congr 1
  omega

theorem range_split {n i : ℕ} (hi : i < n) :
    List.range n = List.range i ++ i :: List.range' (i + 1) (n - i - 1) := by
  rw [List.range_eq_range', List.range_eq_range',
    range'_split (Nat.zero_le i) (by omega)]
  simp

theorem mem_map_range' {α : Type} {a n : ℕ} {f : ℕ → α} {w : α}
    (h : w ∈ (List.range' a n).map f) : ∃ i, a ≤ i ∧ i < a + n ∧ w = f i := by
  obtain ⟨x, hx, he⟩ := List.mem_map.mp h
  obtain ⟨j, hj, he2⟩ := List.mem_range'.mp hx
  subst he2
  exact ⟨a + 1 * j, by omega, by omega, he.symm⟩

/-! ### NormalizationTable (`Nlm`)

The constructor `Nlm::Nlm(int l_max)` fills the packed array in three passes:
pass 1 seeds column 0 with `sqrt(2l+1)`, pass 2 computes column `m` from
column `m-1`, pass 3 multiplies every entry with `m ≥ 1` by `sqrt(2)`. -/

/-- Pass-1 write: `_Nlm[lm_idx(l, 0)] = sqrt(2 * l + 1)`. -/
noncomputable def nlmSeedW (l : ℕ) : Wr :=
  ⟨lm_idx l 0, fun _ => Real.sqrt (2 * (l : ℝ) + 1)⟩

/-- Pass-2 write:
`_Nlm[lm_idx(l, m)] = _Nlm[lm_idx(l, m - 1)] * sqrt(1.0 / ((l - m + 1) * (l + m)))`. -/
noncomputable def nlmRowW (m l : ℕ) : Wr :=
  ⟨lm_idx l m, fun s =>
    s (lm_idx l (m - 1)) * Real.sqrt (1 / (((l : ℝ) - m + 1) * ((l : ℝ) + m)))⟩

/-- Pass-3 write: `_Nlm[lm_idx(l, m)] *= sqrt(2)`. -/
noncomputable def nlmMulW (m l : ℕ) : Wr :=
  ⟨lm_idx l m, fun s => s (lm_idx l m) * Real.sqrt 2⟩

noncomputable def nlmP1 (L : ℕ) : List Wr := (List.range (L + 1)).map nlmSeedW

noncomputable def nlmCol (L m : ℕ) : List Wr :=
  (List.range' m (L + 1 - m)).map (nlmRowW m)

noncomputable def nlmP2 (L : ℕ) : List Wr := (List.range' 1 L).flatMap (nlmCol L)

noncomputable def nlmCol3 (L m : ℕ) : List Wr :=
  (List.range' m (L + 1 - m)).map (nlmMulW m)

noncomputable def nlmP3 (L : ℕ) : List Wr := (List.range' 1 L).flatMap (nlmCol3 L)

noncomputable def nlmWrites (L : ℕ) : List Wr := nlmP1 L ++ nlmP2 L ++ nlmP3 L

/-- The array owned by a constructed `Nlm(l_max = L)` (uninitialised slots
are modelled as 0; no claim depends on them). -/
noncomputable def nlmTable (L : ℕ) : ℕ → ℝ := runW (nlmWrites L) fun _ => 0

/-- Getter `Nlm::get_Nlm(l, m)`. -/
noncomputable def get_Nlm (L l m : ℕ) : ℝ := nlmTable L (lm_idx l m)

/-- Array contents after passes 1 and 2, before the bulk `sqrt(2)` pass. -/
noncomputable def nlmRaw (L : ℕ) : ℕ → ℝ := runW (nlmP1 L ++ nlmP2 L) fun _ => 0

/-- Targets of a column-structured pass lie in the triangle with order ≥ lo. -/
theorem col_tgt {L lo n : ℕ} {colF : ℕ → List Wr} {w : Wr}
    (hcol : ∀ m2 w2, w2 ∈ colF m2 → ∃ l2, m2 ≤ l2 ∧ l2 ≤ L ∧ w2.tgt = lm_idx l2 m2)
    (h : w ∈ (List.range' lo n).flatMap colF) :
    ∃ m2 l2, lo ≤ m2 ∧ m2 < lo + n ∧ m2 ≤ l2 ∧ l2 ≤ L ∧ w.tgt = lm_idx l2 m2 := by
  obtain ⟨m2, hm2, hw⟩ := List.mem_flatMap.mp h
  obtain ⟨j, hj, he⟩ := List.mem_range'.mp hm2
  obtain ⟨l2, hl1, hl2, htgt⟩ := hcol m2 w hw
  exact ⟨m2, l2, by omega, by omega, hl1, hl2, htgt⟩

theorem nlmCol_tgt {L : ℕ} : ∀ m2 w2, w2 ∈ nlmCol L m2 →
    ∃ l2, m2 ≤ l2 ∧ l2 ≤ L ∧ w2.tgt = lm_idx l2 m2 := by
  intro m2 w2 h
  obtain ⟨l2, hl1, hl2, rfl⟩ := mem_map_range' h
  exact ⟨l2, hl1, by omega, rfl⟩

theorem nlmCol3_tgt {L : ℕ} : ∀ m2 w2, w2 ∈ nlmCol3 L m2 →
    ∃ l2, m2 ≤ l2 ∧ l2 ≤ L ∧ w2.tgt = lm_idx l2 m2 := by
  intro m2 w2 h
  obtain ⟨l2, hl1, hl2, rfl⟩ := mem_map_range' h
  exact ⟨l2, hl1, by omega, rfl⟩

/-- Pass-1 value survives any tail that avoids `(l, 0)`. -/
theorem nlm_seed_val {L l : ℕ} (hl : l ≤ L) (rest : List Wr)
    (hrest : ∀ w ∈ rest, w.tgt ≠ lm_idx l 0) (s : ℕ → ℝ) :
    runW (nlmP1 L ++ rest) s (lm_idx l 0) = Real.sqrt (2 * (l : ℝ) + 1) := by
  have hsplit : List.range (L + 1)
      = List.range l ++ l :: List.range' (l + 1) (L - l) := by
    have h := range_split (n := L + 1) (i := l) (by omega)
    have h2 : L + 1 - l - 1 = L - l := by omega
    rwa [h2] at h
  have hdec : nlmP1 L ++ rest
      = (List.range l).map nlmSeedW
        ++ nlmSeedW l
          :: ((List.range' (l + 1) (L - l)).map nlmSeedW ++ rest) := by
    unfold nlmP1
    rw [hsplit, List.map_append, List.map_cons]
    simp [List.append_assoc]
  have hside : ∀ w2 ∈ (List.range' (l + 1) (L - l)).map nlmSeedW ++ rest,
      w2.tgt ≠ lm_idx l 0 := by
    intro w2 hw2
    rcases List.mem_append.mp hw2 with h | h
    · obtain ⟨i, hi1, hi2, rfl⟩ := mem_map_range' h
      exact lm_idx_ne (Nat.zero_le i) (Nat.zero_le l) (by omega)
    · exact hrest w2 h
  rw [hdec]
  exact runW_last _ (nlmSeedW l) _ s hside

theorem nlmRaw_zero {L l : ℕ} (hl : l ≤ L) :
    nlmRaw L (lm_idx l 0) = Real.sqrt (2 * (l : ℝ) + 1) := by
  unfold nlmRaw
  refine nlm_seed_val hl (nlmP2 L) ?_ _
  intro w hw
  obtain ⟨m2, l2, hm2, _, hml, hl2, htgt⟩ := col_tgt nlmCol_tgt hw
  rw [htgt]
  exact lm_idx_ne hml (Nat.zero_le l) (by omega)

theorem nlmTable_zero {L l : ℕ} (hl : l ≤ L) :
    nlmTable L (lm_idx l 0) = Real.sqrt (2 * (l : ℝ) + 1) := by
  unfold nlmTable nlmWrites
  rw [List.append_assoc]
  refine nlm_seed_val hl (nlmP2 L ++ nlmP3 L) ?_ _
  intro w hw
  rcases List.mem_append.mp hw with h | h
  · obtain ⟨m2, l2, hm2, _, hml, hl2, htgt⟩ := col_tgt nlmCol_tgt h
    rw [htgt]
    exact lm_idx_ne hml (Nat.zero_le l) (by omega)
  · obtain ⟨m2, l2, hm2, _, hml, hl2, htgt⟩ := col_tgt nlmCol3_tgt h
    rw [htgt]
    exact lm_idx_ne hml (Nat.zero_le l) (by omega)

/-- Decomposition of passes 1–2 around the pass-2 write at `(l, m)`. -/
theorem nlmP12_dec {L l m : ℕ} (hm : 1 ≤ m) (hml : m ≤ l) (hl : l ≤ L) :
    nlmP1 L ++ nlmP2 L
      = (nlmP1 L ++ ((List.range' 1 (m - 1)).flatMap (nlmCol L)
          ++ (List.range' m (l - m)).map (nlmRowW m)))
        ++ nlmRowW m l
          :: ((List.range' (l + 1) (L - l)).map (nlmRowW m)
            ++ (List.range' (m + 1) (L - m)).flatMap (nlmCol L)) := by
  have hm1 : List.range' 1 L
      = List.range' 1 (m - 1) ++ m :: List.range' (m + 1) (L - m) := by
    have h := range'_split (a := 1) (n := L) (i := m) (by omega) (by omega)
    have h2 : 1 + L - m - 1 = L - m := by omega
    rwa [h2] at h
  have hl1 : nlmCol L m
      = (List.range' m (l - m)).map (nlmRowW m)
        ++ nlmRowW m l :: (List.range' (l + 1) (L - l)).map (nlmRowW m) := by
    have h := range'_split (a := m) (n := L + 1 - m) (i := l) (by omega) (by omega)
    have h2 : m + (L + 1 - m) - l - 1 = L - l := by omega
    rw [h2] at h
    unfold nlmCol
    rw [h, List.map_append, List.map_cons]
  unfold nlmP2
  rw [hm1, List.flatMap_append, List.flatMap_cons, hl1]
  simp [List.append_assoc]

/-- Pass-2 recursion, before the bulk `sqrt(2)` pass: column `m` comes from
column `m-1`. -/
theorem nlmRaw_succ {L l m : ℕ} (hm : 1 ≤ m) (hml : m ≤ l) (hl : l ≤ L) :
    nlmRaw L (lm_idx l m)
      = nlmRaw L (lm_idx l (m - 1))
        * Real.sqrt (1 / (((l : ℝ) - m + 1) * ((l : ℝ) + m))) := by
  have hdec := nlmP12_dec hm hml hl
  have hB : ∀ w ∈ (List.range' (l + 1) (L - l)).map (nlmRowW m)
      ++ (List.range' (m + 1) (L - m)).flatMap (nlmCol L),
      w.tgt ≠ lm_idx l m := by
    intro w hw
    rcases List.mem_append.mp hw with h | h
    · obtain ⟨i, hi1, hi2, rfl⟩ := mem_map_range' h
      exact lm_idx_ne (by omega) hml (by omega)
    · obtain ⟨m2, l2, hm2, _, hml2, hl2, htgt⟩ := col_tgt nlmCol_tgt h
      rw [htgt]
      exact lm_idx_ne hml2 hml (by omega)
  have hread : ∀ w ∈ nlmRowW m l
      :: ((List.range' (l + 1) (L - l)).map (nlmRowW m)
        ++ (List.range' (m + 1) (L - m)).flatMap (nlmCol L)),
      w.tgt ≠ lm_idx l (m - 1) := by
    intro w hw
    rcases List.mem_cons.mp hw with h | h
    · subst h
      exact lm_idx_ne hml (by omega) (by omega)
    rcases List.mem_append.mp h with h | h
    · obtain ⟨i, hi1, hi2, rfl⟩ := mem_map_range' h
      exact lm_idx_ne (by omega) (by omega) (by omega)
    · obtain ⟨m2, l2, hm2, _, hml2, hl2, htgt⟩ := col_tgt nlmCol_tgt h
      rw [htgt]
      exact lm_idx_ne hml2 (by omega) (by omega)
  have hlast2 : runW (nlmP1 L ++ nlmP2 L) (fun _ => 0) (lm_idx l m)
      = runW (nlmP1 L ++ ((List.range' 1 (m - 1)).flatMap (nlmCol L)
          ++ (List.range' m (l - m)).map (nlmRowW m))) (fun _ => 0)
            (lm_idx l (m - 1))
        * Real.sqrt (1 / (((l : ℝ) - m + 1) * ((l : ℝ) + m))) := by
    rw [hdec]
    exact runW_last _ (nlmRowW m l) _ (fun _ => 0) hB
  have hstab2 : runW (nlmP1 L ++ nlmP2 L) (fun _ => 0) (lm_idx l (m - 1))
      = runW (nlmP1 L ++ ((List.range' 1 (m - 1)).flatMap (nlmCol L)
          ++ (List.range' m (l - m)).map (nlmRowW m))) (fun _ => 0)
            (lm_idx l (m - 1)) := by
    rw [hdec]
    exact runW_stable _ _ (fun _ => 0) hread
  unfold nlmRaw
  rw [hlast2, hstab2]

/-- The bulk `sqrt(2)` pass: the final entry at `(l, m)` with `m ≥ 1` is the
pass-2 value times `sqrt(2)`. -/
theorem nlmTable_eq_raw {L l m : ℕ} (hm : 1 ≤ m) (hml : m ≤ l) (hl : l ≤ L) :
    nlmTable L (lm_idx l m) = nlmRaw L (lm_idx l m) * Real.sqrt 2 := by
  have hm1 : List.range' 1 L
      = List.range' 1 (m - 1) ++ m :: List.range' (m + 1) (L - m) := by
    have h := range'_split (a := 1) (n := L) (i := m) (by omega) (by omega)
    have h2 : 1 + L - m - 1 = L - m := by omega
    rwa [h2] at h
  have hl1 : nlmCol3 L m
      = (List.range' m (l - m)).map (nlmMulW m)
        ++ nlmMulW m l :: (List.range' (l + 1) (L - l)).map (nlmMulW m) := by
    have h := range'_split (a := m) (n := L + 1 - m) (i := l) (by omega) (by omega)
    have h2 : m + (L + 1 - m) - l - 1 = L - l := by omega
    rw [h2] at h
    unfold nlmCol3
    rw [h, List.map_append, List.map_cons]
  have hdec : nlmWrites L
      = ((nlmP1 L ++ nlmP2 L)
          ++ ((List.range' 1 (m - 1)).flatMap (nlmCol3 L)
            ++ (List.range' m (l - m)).map (nlmMulW m)))
        ++ nlmMulW m l
          :: ((List.range' (l + 1) (L - l)).map (nlmMulW m)
            ++ (List.range' (m + 1) (L - m)).flatMap (nlmCol3 L)) := by
    unfold nlmWrites nlmP3
    rw [hm1, List.flatMap_append, List.flatMap_cons, hl1]
    simp [List.append_assoc]
  have hB : ∀ w ∈ (List.range' (l + 1) (L - l)).map (nlmMulW m)
      ++ (List.range' (m + 1) (L - m)).flatMap (nlmCol3 L),
      w.tgt ≠ lm_idx l m := by
    intro w hw
    rcases List.mem_append.mp hw with h | h
    · obtain ⟨i, hi1, hi2, rfl⟩ := mem_map_range' h
      exact lm_idx_ne (by omega) hml (by omega)
    · obtain ⟨m2, l2, hm2, _, hml2, hl2, htgt⟩ := col_tgt nlmCol3_tgt h
      rw [htgt]
      exact lm_idx_ne hml2 hml (by omega)
  have hpre : ∀ w ∈ (List.range' 1 (m - 1)).flatMap (nlmCol3 L)
      ++ (List.range' m (l - m)).map (nlmMulW m),
      w.tgt ≠ lm_idx l m := by
    intro w hw
    rcases List.mem_append.mp hw with h | h
    · obtain ⟨m2, l2, hm2, hm2b, hml2, hl2, htgt⟩ := col_tgt nlmCol3_tgt h
      rw [htgt]
      exact lm_idx_ne hml2 hml (by omega)
    · obtain ⟨i, hi1, hi2, rfl⟩ := mem_map_range' h
      exact lm_idx_ne (by omega) hml (by omega)
  have hfin : nlmTable L (lm_idx l m)
      = runW ((nlmP1 L ++ nlmP2 L)
          ++ ((List.range' 1 (m - 1)).flatMap (nlmCol3 L)
            ++ (List.range' m (l - m)).map (nlmMulW m))) (fun _ => 0)
            (lm_idx l m)
        * Real.sqrt 2 := by
    unfold nlmTable
    rw [hdec]
    exact runW_last _ (nlmMulW m l) _ (fun _ => 0) hB
  have hstab2 : runW ((nlmP1 L ++ nlmP2 L)
      ++ ((List.range' 1 (m - 1)).flatMap (nlmCol3 L)
        ++ (List.range' m (l - m)).map (nlmMulW m))) (fun _ => 0) (lm_idx l m)
      = nlmRaw L (lm_idx l m) :=
    runW_stable _ _ (fun _ => 0) hpre
  rw [hfin, hstab2]

/-- Closed form of the pass-2 state: `nlmRaw(l,m) = sqrt((2l+1)·(l−m)!/(l+m)!)`. -/
theorem nlmRaw_closed {L l m : ℕ} (hml : m ≤ l) (hl : l ≤ L) :
    nlmRaw L (lm_idx l m)
      = Real.sqrt ((2 * (l : ℝ) + 1) * (Nat.factorial (l - m))
          / (Nat.factorial (l + m))) := by
  induction m with
  | zero =>
    rw [nlmRaw_zero hl, Nat.sub_zero, Nat.add_zero]
    congr 1
    rw [mul_div_assoc, div_self, mul_one]
    exact_mod_cast Nat.factorial_ne_zero l
  | succ k ih =>
    have hkl : k ≤ l := by omega
    have hkl2 : k < l := by omega
    have hred : k + 1 - 1 = k := by omega
    rw [nlmRaw_succ (by omega) hml hl, hred, ih hkl]
    have hA : (0 : ℝ) ≤ (2 * (l : ℝ) + 1) * (Nat.factorial (l - k))
        / (Nat.factorial (l + k)) := by positivity
    rw [← Real.sqrt_mul hA]
    congr 1
    have e2 : (Nat.factorial (l - k) : ℝ)
        = ((l : ℝ) - k) * (Nat.factorial (l - (k + 1))) := by
      have e1 : l - k = (l - (k + 1)) + 1 := by omega
      rw [e1, Nat.factorial_succ]
      push_cast [Nat.cast_sub (show k + 1 ≤ l from hml)]
      ring
    have e3 : (Nat.factorial (l + (k + 1)) : ℝ)
        = ((l : ℝ) + k + 1) * (Nat.factorial (l + k)) := by
      have e1 : l + (k + 1) = (l + k) + 1 := by omega
      rw [e1, Nat.factorial_succ]
      push_cast
      ring
    have hrk : ((l : ℝ) - k) ≠ 0 := by
      have : (k : ℝ) < l := by exact_mod_cast hkl2
      linarith
    rw [e2, e3]
    push_cast
    rw [show ((l : ℝ) - ((k : ℝ) + 1) + 1) = (l : ℝ) - (k : ℝ) from by ring]
    rw [div_mul_div_comm, mul_one]
    rw [show (2 * (l : ℝ) + 1) * (((l : ℝ) - (k : ℝ))
          * (Nat.factorial (l - (k + 1)) : ℝ))
        = ((l : ℝ) - (k : ℝ))
          * ((2 * (l : ℝ) + 1) * (Nat.factorial (l - (k + 1)) : ℝ)) from by ring]
    rw [show (Nat.factorial (l + k) : ℝ)
          * (((l : ℝ) - (k : ℝ)) * ((l : ℝ) + ((k : ℝ) + 1)))
        = ((l : ℝ) - (k : ℝ))
          * (((l : ℝ) + (k : ℝ) + 1) * (Nat.factorial (l + k) : ℝ)) from by ring]
    rw [mul_div_mul_left _ _ hrk]

/-- Full closed form of the stored table, with the `sqrt(2)` adjustment for
`m ≥ 1`. -/
theorem nlm_closed_form {L l m : ℕ} (hml : m ≤ l) (hl : l ≤ L) :
    get_Nlm L l m
      = Real.sqrt ((if m = 0 then (1 : ℝ) else 2)
          * ((2 * (l : ℝ) + 1) * (Nat.factorial (l - m))
            / (Nat.factorial (l + m)))) := by
  rcases Nat.eq_zero_or_pos m with rfl | hm
  · show nlmTable L (lm_idx l 0) = _
    rw [nlmTable_zero hl, if_pos rfl, one_mul, Nat.sub_zero, Nat.add_zero]
    congr 1
    rw [mul_div_assoc, div_self, mul_one]
    exact_mod_cast Nat.factorial_ne_zero l
  · show nlmTable L (lm_idx l m) = _
    have hA : (0 : ℝ) ≤ (2 * (l : ℝ) + 1) * (Nat.factorial (l - m))
        / (Nat.factorial (l + m)) := by positivity
    rw [nlmTable_eq_raw hm hml hl, nlmRaw_closed hml hl,
      if_neg (by omega : ¬ m = 0), Real.sqrt_mul' 2 hA]
    exact mul_comm _ _

/-- Claim C3 (amended): after constructing a NormalizationTable for any
`l_max ≥ 0`, the stored entries satisfy `entry(l,0) = sqrt(2l+1)` and, for
`0 < m ≤ l`, `entry(l,m) = entry(l,m-1)·sqrt(1/((l-m+1)(l+m)))·f(m)` where the
extra factor `f(m)` is `sqrt(2)` for `m = 1` only and `1` for `m ≥ 2` (the
bulk `sqrt(2)` pass multiplies each entry once, so the per-step `sqrt(2)` of
the original claim holds only at the first step); the table is a pure function
of `l_max`, never mutated after construction. -/
theorem C3_nlm_recursion (L l : ℕ) (hl : l ≤ L) :
    get_Nlm L l 0 = Real.sqrt (2 * (l : ℝ) + 1)
      ∧ ∀ m, 1 ≤ m → m ≤ l →
          get_Nlm L l m
            = get_Nlm L l (m - 1)
              * Real.sqrt (1 / (((l : ℝ) - m + 1) * ((l : ℝ) + m)))
              * (if m = 1 then Real.sqrt 2 else 1) := by
  refine ⟨nlmTable_zero hl, ?_⟩
  intro m hm hml
  rcases eq_or_lt_of_le hm with h1 | h1
  · have hm1 : m = 1 := h1.symm
    subst hm1
    rw [if_pos rfl]
    show nlmTable L (lm_idx l 1) = nlmTable L (lm_idx l (1 - 1)) * _ * _
    rw [nlmTable_eq_raw le_rfl hml hl, nlmRaw_succ le_rfl hml hl]
    have h0 : (1 : ℕ) - 1 = 0 := rfl
    rw [h0, nlmRaw_zero hl, nlmTable_zero hl]
  · rw [if_neg (by omega)]
    show nlmTable L (lm_idx l m) = nlmTable L (lm_idx l (m - 1)) * _ * _
    rw [nlmTable_eq_raw hm hml hl, nlmRaw_succ hm hml hl,
      nlmTable_eq_raw (by omega : 1 ≤ m - 1) (by omega) hl]
    ring

/-- Counterexample to claim C3 as stated: at `l_max = 2`, the entry `(2,2)`
does not equal `entry(2,1)·sqrt(1/((2-2+1)(2+2)))·sqrt(2)` — the per-step
`sqrt(2)` factor double-counts the single bulk `sqrt(2)` pass. -/
theorem C3_counterexample :
    ¬ (get_Nlm 2 2 2
        = get_Nlm 2 2 1
          * Real.sqrt (1 / (((2 : ℝ) - 2 + 1) * ((2 : ℝ) + 2)))
          * Real.sqrt 2) := by
  intro h
  have h20 : nlmRaw 2 (lm_idx 2 0) = Real.sqrt 5 := by
    rw [nlmRaw_zero (by norm_num)]
    norm_num
  have h21 : nlmRaw 2 (lm_idx 2 1) = Real.sqrt 5 * (Real.sqrt 6)⁻¹ := by
    have h2 := nlmRaw_succ (L := 2) (l := 2) (m := 1)
      (by norm_num) (by norm_num) (by norm_num)
    norm_num at h2
    rw [h2, h20]
  have h21pos : 0 < nlmRaw 2 (lm_idx 2 1) := by
    rw [h21]
    positivity
  have hg21 : get_Nlm 2 2 1 = nlmRaw 2 (lm_idx 2 1) * Real.sqrt 2 :=
    nlmTable_eq_raw (by norm_num) (by norm_num) (by norm_num)
  have hg22 : get_Nlm 2 2 2
      = nlmRaw 2 (lm_idx 2 1) * (Real.sqrt 4)⁻¹ * Real.sqrt 2 := by
    have h2 := nlmRaw_succ (L := 2) (l := 2) (m := 2)
      (by norm_num) (by norm_num) (by norm_num)
    norm_num at h2
    show nlmTable 2 (lm_idx 2 2) = _
    rw [nlmTable_eq_raw (by norm_num) (by norm_num) (by norm_num), h2]
  have hcl : Real.sqrt (1 / (((2 : ℝ) - 2 + 1) * ((2 : ℝ) + 2)))
      = (Real.sqrt 4)⁻¹ := by norm_num
  rw [hg22, hg21, hcl] at h
  have hq : (Real.sqrt 4)⁻¹ = 1 / 2 := by
    rw [show (4 : ℝ) = 2 ^ 2 by norm_num,
      Real.sqrt_sq (by norm_num : (0:ℝ) ≤ 2)]
    norm_num
  rw [hq] at h
  have hs2 : Real.sqrt 2 * Real.sqrt 2 = 2 :=
    Real.mul_self_sqrt (by norm_num)
  have hkey : nlmRaw 2 (lm_idx 2 1) * Real.sqrt 2
      = nlmRaw 2 (lm_idx 2 1) * 2 := by nlinarith [h, hs2]
  have h2eq : Real.sqrt 2 = 2 := mul_left_cancel₀ (ne_of_gt h21pos) hkey
  have h3 := Real.sq_sqrt (show (0:ℝ) ≤ 2 by norm_num)
  rw [h2eq] at h3
  norm_num at h3

/-- Witness for C3 at `l_max = 2`, `l = 2`: the `m = 0` seed and the `m = 2`
step (no `sqrt(2)` factor). -/
theorem C3_witness :
    get_Nlm 2 2 0 = Real.sqrt (2 * (2 : ℝ) + 1)
      ∧ get_Nlm 2 2 2
          = get_Nlm 2 2 1
            * Real.sqrt (1 / (((2 : ℝ) - 2 + 1) * ((2 : ℝ) + 2))) := by
  have h := C3_nlm_recursion 2 2 le_rfl
  have h2 := h.2 2 (by norm_num) le_rfl
  constructor
  · have h1 := h.1
    norm_num at h1 ⊢
    exact h1
  · norm_num at h2 ⊢
    exact h2

/-- Claim C4 (amended): the NormalizationTable getter satisfies the closed
form `get(l,m) = sqrt((2 − δ_{0m})·(2l+1)·(l−m)!/(l+m)!)` — the factorial
ratio is `(l−m)!/(l+m)!`, the reciprocal of the ratio in the original claim
(the code's own unit test checks this orientation). -/
theorem C4_nlm_closed_form (L l m : ℕ) (hml : m ≤ l) (hl : l ≤ L) :
    get_Nlm L l m
      = Real.sqrt (((2 : ℝ) - (if m = 0 then 1 else 0))
          * (2 * (l : ℝ) + 1) * (Nat.factorial (l - m))
          / (Nat.factorial (l + m))) := by
  rw [nlm_closed_form hml hl]
  congr 1
  split_ifs with h
  · ring
  · ring

/-- Counterexample to claim C4 as stated: at `l = m = 1`,
`get(1,1) = sqrt(3)`, while the claimed closed form with the factorial ratio
`(l+m)!/(l−m)!` gives `sqrt(12)`. -/
theorem C4_counterexample :
    get_Nlm 1 1 1
      ≠ Real.sqrt (2 * (2 * (1 : ℝ) + 1)
          * (Nat.factorial (1 + 1)) / (Nat.factorial (1 - 1))) := by
  have h := nlm_closed_form (L := 1) (l := 1) (m := 1) le_rfl le_rfl
  norm_num [Nat.factorial] at h ⊢
  rw [h]
  intro he
  have h3 := (Real.sqrt_inj (by norm_num) (by norm_num)).mp he
  norm_num at h3

/-- Witness for C4 at `L = 2`, `(l, m) = (2, 1)`. -/
theorem C4_witness :
    get_Nlm 2 2 1
      = Real.sqrt (((2 : ℝ) - 0) * (2 * (2 : ℝ) + 1)
          * (Nat.factorial (2 - 1)) / (Nat.factorial (2 + 1))) := by
  have h := C4_nlm_closed_form 2 2 1 (by norm_num) (by norm_num)
  norm_num at h ⊢
  convert h using 2

/-! ### LegendreEngine (`Plm`)

`Plm::Plm(l_max, theta, …)` fills `_Plm` in strict phases: seed `(0,0)` and
`(1,1)`, sectorial pass `(l,l)` for `l = 2..l_max`, then for each order
`m = 0..l_max-1` the sub-diagonal entry `(m+1,m)` followed by the three-term
column recursion for `l = m+2..l_max`.  The coupling coefficients `a`, `b`
are precomputed into write-once arrays indexed by `lm_idx`; we model them as
functions of `(l, m)`. -/

/-- `a[lm_idx(l,m)] = sqrt((2l-1)(2l+1)/((l-m)(l+m)))`. -/
noncomputable def plm_a (l m : ℕ) : ℝ :=
  Real.sqrt ((2 * (l : ℝ) - 1) * (2 * (l : ℝ) + 1)
    / (((l : ℝ) - m) * ((l : ℝ) + m)))

/-- `b[lm_idx(l,m)]`: `sqrt((2l+1)(l+m-1)(l-m-1)/((l-m)(l+m)(2l-3)))`, and `0`
when `l - m = 1`. -/
noncomputable def plm_b (l m : ℕ) : ℝ :=
  if l - m ≠ 1 then
    Real.sqrt ((2 * (l : ℝ) + 1) * ((l : ℝ) + m - 1) * ((l : ℝ) - m - 1)
      / (((l : ℝ) - m) * ((l : ℝ) + m) * (2 * (l : ℝ) - 3)))
  else 0

/-- Seed write `_Plm[0] = 1`. -/
noncomputable def plmSeedW : Wr := ⟨lm_idx 0 0, fun _ => 1⟩

/-- Seed write `_Plm[lm_idx(1,1)] = sqrt(3) * u` (only when `l_max > 0`). -/
noncomputable def plmSeed1W (θ : ℝ) : Wr :=
  ⟨lm_idx 1 1, fun _ => Real.sqrt 3 * Real.sin θ⟩

/-- Sectorial write
`_Plm[lm_idx(l,l)] = sqrt((2l+1)/(2l)) * u * _Plm[lm_idx(l-1,l-1)]`. -/
noncomputable def plmSectW (θ : ℝ) (l : ℕ) : Wr :=
  ⟨lm_idx l l, fun s =>
    Real.sqrt ((2 * (l : ℝ) + 1) / (2 * (l : ℝ))) * Real.sin θ
      * s (lm_idx (l - 1) (l - 1))⟩

/-- First sub-diagonal write
`_Plm[lm_idx(m+1,m)] = a[lm_idx(m+1,m)] * t * _Plm[lm_idx(m,m)]`. -/
noncomputable def plmColHeadW (θ : ℝ) (m : ℕ) : Wr :=
  ⟨lm_idx (m + 1) m, fun s => plm_a (m + 1) m * Real.cos θ * s (lm_idx m m)⟩

/-- Column write `_Plm[lm_idx(l,m)] = a*t*_Plm[lm_idx(l-1,m)] -
b*_Plm[lm_idx(l-2,m)]`. -/
noncomputable def plmColW (θ : ℝ) (m l : ℕ) : Wr :=
  ⟨lm_idx l m, fun s =>
    plm_a l m * Real.cos θ * s (lm_idx (l - 1) m)
      - plm_b l m * s (lm_idx (l - 2) m)⟩

noncomputable def plmSeed (L : ℕ) (θ : ℝ) : List Wr :=
  plmSeedW :: (if 0 < L then [plmSeed1W θ] else [])

noncomputable def plmSect (L : ℕ) (θ : ℝ) : List Wr :=
  (List.range' 2 (L - 1)).map (plmSectW θ)

noncomputable def plmColSeg (L : ℕ) (θ : ℝ) (m : ℕ) : List Wr :=
  plmColHeadW θ m :: (List.range' (m + 2) (L - (m + 1))).map (plmColW θ m)

noncomputable def plmCol (L : ℕ) (θ : ℝ) : List Wr :=
  (List.range L).flatMap (plmColSeg L θ)

noncomputable def plmWrites (L : ℕ) (θ : ℝ) : List Wr :=
  plmSeed L θ ++ plmSect L θ ++ plmCol L θ

/-- The `_Plm` array of a constructed `Plm(l_max = L, theta = θ)`. -/
noncomputable def plmTable (L : ℕ) (θ : ℝ) : ℕ → ℝ :=
  runW (plmWrites L θ) fun _ => 0

/-- Getter `Plm::get_Plm_bar`. -/
noncomputable def get_Plm_bar (L : ℕ) (θ : ℝ) (l m : ℕ) : ℝ :=
  plmTable L θ (lm_idx l m)

theorem plmColSeg_tgt {L : ℕ} {θ : ℝ} {m : ℕ} {w : Wr}
    (h : w ∈ plmColSeg L θ m) : ∃ l2, m < l2 ∧ w.tgt = lm_idx l2 m := by
  unfold plmColSeg at h
  rcases List.mem_cons.mp h with h | h
  · subst h
    exact ⟨m + 1, by omega, rfl⟩
  · obtain ⟨i, hi1, hi2, rfl⟩ := mem_map_range' h
    exact ⟨i, by omega, rfl⟩

theorem plmCol_tgt {L : ℕ} {θ : ℝ} {w : Wr} {is : List ℕ}
    (h : w ∈ is.flatMap (plmColSeg L θ)) :
    ∃ m2 l2, m2 ∈ is ∧ m2 < l2 ∧ w.tgt = lm_idx l2 m2 := by
  obtain ⟨m2, hm2, hw⟩ := List.mem_flatMap.mp h
  obtain ⟨l2, hl2, htgt⟩ := plmColSeg_tgt hw
  exact ⟨m2, l2, hm2, hl2, htgt⟩

/-- Seed relation: the stored `(0,0)` entry is `1`. -/
theorem plm_rel_00 (L : ℕ) (θ : ℝ) : plmTable L θ (lm_idx 0 0) = 1 := by
  unfold plmTable plmWrites
  have hdec : plmSeed L θ ++ plmSect L θ ++ plmCol L θ
      = [] ++ plmSeedW
        :: (((if 0 < L then [plmSeed1W θ] else []) ++ plmSect L θ)
          ++ plmCol L θ) := by
    unfold plmSeed
    simp [List.append_assoc]
  have hside : ∀ w ∈ ((if 0 < L then [plmSeed1W θ] else []) ++ plmSect L θ)
      ++ plmCol L θ, w.tgt ≠ lm_idx 0 0 := by
    intro w hw
    rcases List.mem_append.mp hw with h | h
    · rcases List.mem_append.mp h with h | h
      · split_ifs at h with hL
        · rcases List.mem_singleton.mp h with rfl
          exact lm_idx_ne le_rfl le_rfl (by omega)
        · exact absurd h (List.not_mem_nil w)
      · obtain ⟨i, hi1, hi2, rfl⟩ := mem_map_range' h
        exact lm_idx_ne le_rfl le_rfl (by omega)
    · obtain ⟨m2, l2, _, hml2, htgt⟩ := plmCol_tgt h
      rw [htgt]
      exact lm_idx_ne (by omega) le_rfl (by omega)
  rw [hdec]
  exact runW_last [] plmSeedW _ (fun _ => 0) hside

/-- Seed relation: when `l_max > 0` the stored `(1,1)` entry is
`sqrt(3)·sin θ`. -/
theorem plm_rel_11 {L : ℕ} (θ : ℝ) (hL : 0 < L) :
    plmTable L θ (lm_idx 1 1) = Real.sqrt 3 * Real.sin θ := by
  unfold plmTable plmWrites
  have hdec : plmSeed L θ ++ plmSect L θ ++ plmCol L θ
      = [plmSeedW] ++ plmSeed1W θ :: (plmSect L θ ++ plmCol L θ) := by
    unfold plmSeed
    rw [if_pos hL]
    simp [List.append_assoc]
  have hside : ∀ w ∈ plmSect L θ ++ plmCol L θ, w.tgt ≠ lm_idx 1 1 := by
    intro w hw
    rcases List.mem_append.mp hw with h | h
    · obtain ⟨i, hi1, hi2, rfl⟩ := mem_map_range' h
      exact lm_idx_ne le_rfl le_rfl (by omega)
    · obtain ⟨m2, l2, _, hml2, htgt⟩ := plmCol_tgt h
      rw [htgt]
      exact lm_idx_ne (by omega) le_rfl (by omega)
  rw [hdec]
  exact runW_last [plmSeedW] (plmSeed1W θ) _ (fun _ => 0) hside

/-- Sectorial recursion relation, as stored. -/
theorem plm_rel_sect {L l : ℕ} (θ : ℝ) (h2 : 2 ≤ l) (hl : l ≤ L) :
    plmTable L θ (lm_idx l l)
      = Real.sqrt ((2 * (l : ℝ) + 1) / (2 * (l : ℝ))) * Real.sin θ
        * plmTable L θ (lm_idx (l - 1) (l - 1)) := by
  have hsplit : List.range' 2 (L - 1)
      = List.range' 2 (l - 2) ++ l :: List.range' (l + 1) (L - l) := by
    have h := range'_split (a := 2) (n := L - 1) (i := l) (by omega) (by omega)
    have he : 2 + (L - 1) - l - 1 = L - l := by omega
    rwa [he] at h
  have hdec : plmWrites L θ
      = (plmSeed L θ ++ (List.range' 2 (l - 2)).map (plmSectW θ))
        ++ plmSectW θ l
          :: ((List.range' (l + 1) (L - l)).map (plmSectW θ) ++ plmCol L θ) := by
    unfold plmWrites plmSect
    rw [hsplit, List.map_append, List.map_cons]
    simp [List.append_assoc]
  have hB : ∀ w ∈ (List.range' (l + 1) (L - l)).map (plmSectW θ)
      ++ plmCol L θ, w.tgt ≠ lm_idx l l := by
    intro w hw
    rcases List.mem_append.mp hw with h | h
    · obtain ⟨i, hi1, hi2, rfl⟩ := mem_map_range' h
      exact lm_idx_ne le_rfl le_rfl (by omega)
    · obtain ⟨m2, l2, _, hml2, htgt⟩ := plmCol_tgt h
      rw [htgt]
      exact lm_idx_ne (by omega) le_rfl (by omega)
  have hRead : ∀ w ∈ plmSectW θ l
      :: ((List.range' (l + 1) (L - l)).map (plmSectW θ) ++ plmCol L θ),
      w.tgt ≠ lm_idx (l - 1) (l - 1) := by
    intro w hw
    rcases List.mem_cons.mp hw with h | h
    · subst h
      exact lm_idx_ne le_rfl le_rfl (by omega)
    rcases List.mem_append.mp h with h | h
    · obtain ⟨i, hi1, hi2, rfl⟩ := mem_map_range' h
      exact lm_idx_ne le_rfl le_rfl (by omega)
    · obtain ⟨m2, l2, _, hml2, htgt⟩ := plmCol_tgt h
      rw [htgt]
      exact lm_idx_ne (by omega) le_rfl (by omega)
  have hlast : plmTable L θ (lm_idx l l)
      = Real.sqrt ((2 * (l : ℝ) + 1) / (2 * (l : ℝ))) * Real.sin θ
        * runW (plmSeed L θ ++ (List.range' 2 (l - 2)).map (plmSectW θ))
            (fun _ => 0) (lm_idx (l - 1) (l - 1)) := by
    show runW (plmWrites L θ) (fun _ => 0) (lm_idx l l) = _
    rw [hdec]
    exact runW_last _ (plmSectW θ l) _ (fun _ => 0) hB
  have hstab : plmTable L θ (lm_idx (l - 1) (l - 1))
      = runW (plmSeed L θ ++ (List.range' 2 (l - 2)).map (plmSectW θ))
          (fun _ => 0) (lm_idx (l - 1) (l - 1)) := by
    show runW (plmWrites L θ) (fun _ => 0) (lm_idx (l - 1) (l - 1)) = _
    rw [hdec]
    exact runW_stable _ _ (fun _ => 0) hRead
  rw [hlast, hstab]

/-- First sub-diagonal relation, as stored. -/
theorem plm_rel_head {L m : ℕ} (θ : ℝ) (hm : m < L) :
    plmTable L θ (lm_idx (m + 1) m)
      = plm_a (m + 1) m * Real.cos θ * plmTable L θ (lm_idx m m) := by
  have hsplit : List.range L
      = List.range m ++ m :: List.range' (m + 1) (L - m - 1) := range_split hm
  have hdec : plmWrites L θ
      = ((plmSeed L θ ++ plmSect L θ) ++ (List.range m).flatMap (plmColSeg L θ))
        ++ plmColHeadW θ m
          :: ((List.range' (m + 2) (L - (m + 1))).map (plmColW θ m)
            ++ (List.range' (m + 1) (L - m - 1)).flatMap (plmColSeg L θ)) := by
    unfold plmWrites plmCol
    rw [hsplit, List.flatMap_append, List.flatMap_cons]
    unfold plmColSeg
    simp [List.append_assoc]
  have hB : ∀ w ∈ (List.range' (m + 2) (L - (m + 1))).map (plmColW θ m)
      ++ (List.range' (m + 1) (L - m - 1)).flatMap (plmColSeg L θ),
      w.tgt ≠ lm_idx (m + 1) m := by
    intro w hw
    rcases List.mem_append.mp hw with h | h
    · obtain ⟨i, hi1, hi2, rfl⟩ := mem_map_range' h
      exact lm_idx_ne (by omega) (by omega) (by omega)
    · obtain ⟨m2, l2, hm2mem, hml2, htgt⟩ := plmCol_tgt h
      obtain ⟨j, hj, hje⟩ := List.mem_range'.mp hm2mem
      rw [htgt]
      exact lm_idx_ne (by omega) (by omega) (by omega)
  have hRead : ∀ w ∈ plmColHeadW θ m
      :: ((List.range' (m + 2) (L - (m + 1))).map (plmColW θ m)
        ++ (List.range' (m + 1) (L - m - 1)).flatMap (plmColSeg L θ)),
      w.tgt ≠ lm_idx m m := by
    intro w hw
    rcases List.mem_cons.mp hw with h | h
    · subst h
      exact lm_idx_ne (by omega) le_rfl (by omega)
    rcases List.mem_append.mp h with h | h
    · obtain ⟨i, hi1, hi2, rfl⟩ := mem_map_range' h
      exact lm_idx_ne (by omega) le_rfl (by omega)
    · obtain ⟨m2, l2, hm2mem, hml2, htgt⟩ := plmCol_tgt h
      obtain ⟨j, hj, hje⟩ := List.mem_range'.mp hm2mem
      rw [htgt]
      exact lm_idx_ne (by omega) le_rfl (by omega)
  have hlast : plmTable L θ (lm_idx (m + 1) m)
      = plm_a (m + 1) m * Real.cos θ
        * runW ((plmSeed L θ ++ plmSect L θ)
            ++ (List.range m).flatMap (plmColSeg L θ)) (fun _ => 0)
            (lm_idx m m) := by
    show runW (plmWrites L θ) (fun _ => 0) (lm_idx (m + 1) m) = _
    rw [hdec]
    exact runW_last _ (plmColHeadW θ m) _ (fun _ => 0) hB
  have hstab : plmTable L θ (lm_idx m m)
      = runW ((plmSeed L θ ++ plmSect L θ)
          ++ (List.range m).flatMap (plmColSeg L θ)) (fun _ => 0)
          (lm_idx m m) := by
    show runW (plmWrites L θ) (fun _ => 0) (lm_idx m m) = _
    rw [hdec]
    exact runW_stable _ _ (fun _ => 0) hRead
  rw [hlast, hstab]

/-- Three-term column relation, as stored. -/
theorem plm_rel_col {L m l : ℕ} (θ : ℝ) (hml : m + 2 ≤ l) (hl : l ≤ L) :
    plmTable L θ (lm_idx l m)
      = plm_a l m * Real.cos θ * plmTable L θ (lm_idx (l - 1) m)
        - plm_b l m * plmTable L θ (lm_idx (l - 2) m) := by
  have hm : m < L := by omega
  have hsplit1 : List.range L
      = List.range m ++ m :: List.range' (m + 1) (L - m - 1) := range_split hm
  have hsplit2 : List.range' (m + 2) (L - (m + 1))
      = List.range' (m + 2) (l - (m + 2))
        ++ l :: List.range' (l + 1) (L - l) := by
    have h := range'_split (a := m + 2) (n := L - (m + 1)) (i := l)
      (by omega) (by omega)
    have he : m + 2 + (L - (m + 1)) - l - 1 = L - l := by omega
    rwa [he] at h
  have hdec : plmWrites L θ
      = (((plmSeed L θ ++ plmSect L θ)
            ++ (List.range m).flatMap (plmColSeg L θ))
          ++ (plmColHeadW θ m
            :: (List.range' (m + 2) (l - (m + 2))).map (plmColW θ m)))
        ++ plmColW θ m l
          :: ((List.range' (l + 1) (L - l)).map (plmColW θ m)
            ++ (List.range' (m + 1) (L - m - 1)).flatMap (plmColSeg L θ)) := by
    unfold plmWrites plmCol
    rw [hsplit1, List.flatMap_append, List.flatMap_cons]
    unfold plmColSeg
    rw [hsplit2, List.map_append, List.map_cons]
    simp [List.append_assoc]
  have hB : ∀ w ∈ (List.range' (l + 1) (L - l)).map (plmColW θ m)
      ++ (List.range' (m + 1) (L - m - 1)).flatMap (plmColSeg L θ),
      w.tgt ≠ lm_idx l m := by
    intro w hw
    rcases List.mem_append.mp hw with h | h
    · obtain ⟨i, hi1, hi2, rfl⟩ := mem_map_range' h
      exact lm_idx_ne (by omega) (by omega) (by omega)
    · obtain ⟨m2, l2, hm2mem, hml2, htgt⟩ := plmCol_tgt h
      obtain ⟨j, hj, hje⟩ := List.mem_range'.mp hm2mem
      rw [htgt]
      exact lm_idx_ne (by omega) (by omega) (by omega)
  have hRead1 : ∀ w ∈ plmColW θ m l
      :: ((List.range' (l + 1) (L - l)).map (plmColW θ m)
        ++ (List.range' (m + 1) (L - m - 1)).flatMap (plmColSeg L θ)),
      w.tgt ≠ lm_idx (l - 1) m := by
    intro w hw
    rcases List.mem_cons.mp hw with h | h
    · subst h
      exact lm_idx_ne (by omega) (by omega) (by omega)
    rcases List.mem_append.mp h with h | h
    · obtain ⟨i, hi1, hi2, rfl⟩ := mem_map_range' h
      exact lm_idx_ne (by omega) (by omega) (by omega)
    · obtain ⟨m2, l2, hm2mem, hml2, htgt⟩ := plmCol_tgt h
      obtain ⟨j, hj, hje⟩ := List.mem_range'.mp hm2mem
      rw [htgt]
      exact lm_idx_ne (by omega) (by omega) (by omega)
  have hRead2 : ∀ w ∈ plmColW θ m l
      :: ((List.range' (l + 1) (L - l)).map (plmColW θ m)
        ++ (List.range' (m + 1) (L - m - 1)).flatMap (plmColSeg L θ)),
      w.tgt ≠ lm_idx (l - 2) m := by
    intro w hw
    rcases List.mem_cons.mp hw with h | h
    · subst h
      exact lm_idx_ne (by omega) (by omega) (by omega)
    rcases List.mem_append.mp h with h | h
    · obtain ⟨i, hi1, hi2, rfl⟩ := mem_map_range' h
      exact lm_idx_ne (by omega) (by omega) (by omega)
    · obtain ⟨m2, l2, hm2mem, hml2, htgt⟩ := plmCol_tgt h
      obtain ⟨j, hj, hje⟩ := List.mem_range'.mp hm2mem
      rw [htgt]
      exact lm_idx_ne (by omega) (by omega) (by omega)
  have hlast : plmTable L θ (lm_idx l m)
      = plm_a l m * Real.cos θ
          * runW ((((plmSeed L θ ++ plmSect L θ)
              ++ (List.range m).flatMap (plmColSeg L θ))
            ++ (plmColHeadW θ m
              :: (List.range' (m + 2) (l - (m + 2))).map (plmColW θ m))))
            (fun _ => 0) (lm_idx (l - 1) m)
        - plm_b l m
          * runW ((((plmSeed L θ ++ plmSect L θ)
              ++ (List.range m).flatMap (plmColSeg L θ))
            ++ (plmColHeadW θ m
              :: (List.range' (m + 2) (l - (m + 2))).map (plmColW θ m))))
            (fun _ => 0) (lm_idx (l - 2) m) := by
    show runW (plmWrites L θ) (fun _ => 0) (lm_idx l m) = _
    rw [hdec]
    exact runW_last _ (plmColW θ m l) _ (fun _ => 0) hB
  have hstab1 : plmTable L θ (lm_idx (l - 1) m)
      = runW ((((plmSeed L θ ++ plmSect L θ)
          ++ (List.range m).flatMap (plmColSeg L θ))
        ++ (plmColHeadW θ m
          :: (List.range' (m + 2) (l - (m + 2))).map (plmColW θ m))))
        (fun _ => 0) (lm_idx (l - 1) m) := by
    show runW (plmWrites L θ) (fun _ => 0) (lm_idx (l - 1) m) = _
    rw [hdec]
    exact runW_stable _ _ (fun _ => 0) hRead1
  have hstab2 : plmTable L θ (lm_idx (l - 2) m)
      = runW ((((plmSeed L θ ++ plmSect L θ)
          ++ (List.range m).flatMap (plmColSeg L θ))
        ++ (plmColHeadW θ m
          :: (List.range' (m + 2) (l - (m + 2))).map (plmColW θ m))))
        (fun _ => 0) (lm_idx (l - 2) m) := by
    show runW (plmWrites L θ) (fun _ => 0) (lm_idx (l - 2) m) = _
    rw [hdec]
    exact runW_stable _ _ (fun _ => 0) hRead2
  rw [hlast, hstab1, hstab2]

/-- Claim C1: for every `l_max ≥ 0` and co-latitude `θ`, the stored
fully-normalized ALF table satisfies the FOID recursion as a postcondition of
construction: `value(0,0) = 1`; when `l_max > 0`, `value(1,1) = sqrt(3)·sin θ`;
for `l = 2..l_max`, `value(l,l) = sqrt((2l+1)/(2l))·sin θ·value(l-1,l-1)`;
for each `m = 0..l_max-1`, `value(m+1,m) = a(m+1,m)·cos θ·value(m,m)` and, for
`l = m+2..l_max`, `value(l,m) = a(l,m)·cos θ·value(l-1,m) − b(l,m)·value(l-2,m)`,
with `a(l,m) = sqrt((2l-1)(2l+1)/((l-m)(l+m)))`,
`b(l,m) = sqrt((2l+1)(l+m-1)(l-m-1)/((l-m)(l+m)(2l-3)))`, and `b(l,m) = 0`
when `l-m = 1`. -/
theorem C1_plm_foid (L : ℕ) (θ : ℝ) :
    plmTable L θ (lm_idx 0 0) = 1
    ∧ (0 < L → plmTable L θ (lm_idx 1 1) = Real.sqrt 3 * Real.sin θ)
    ∧ (∀ l, 2 ≤ l → l ≤ L →
        plmTable L θ (lm_idx l l)
          = Real.sqrt ((2 * (l : ℝ) + 1) / (2 * (l : ℝ))) * Real.sin θ
            * plmTable L θ (lm_idx (l - 1) (l - 1)))
    ∧ (∀ m, m < L →
        plmTable L θ (lm_idx (m + 1) m)
          = plm_a (m + 1) m * Real.cos θ * plmTable L θ (lm_idx m m))
    ∧ (∀ m l, m + 2 ≤ l → l ≤ L →
        plmTable L θ (lm_idx l m)
          = plm_a l m * Real.cos θ * plmTable L θ (lm_idx (l - 1) m)
            - plm_b l m * plmTable L θ (lm_idx (l - 2) m))
    ∧ (∀ l m, l - m = 1 → plm_b l m = 0) :=
  ⟨plm_rel_00 L θ,
   fun hL => plm_rel_11 θ hL,
   fun _ h2 hl => plm_rel_sect θ h2 hl,
   fun _ hm => plm_rel_head θ hm,
   fun _ _ hml hl => plm_rel_col θ hml hl,
   fun l m h1 => by unfold plm_b; rw [if_neg (by omega)]⟩

/-- Witness for C1 at `l_max = 3`, `θ = 1`, exercising every clause. -/
theorem C1_witness :
    plmTable 3 1 (lm_idx 0 0) = 1
    ∧ plmTable 3 1 (lm_idx 1 1) = Real.sqrt 3 * Real.sin 1
    ∧ plmTable 3 1 (lm_idx 2 2)
        = Real.sqrt ((2 * (2 : ℝ) + 1) / (2 * (2 : ℝ))) * Real.sin 1
          * plmTable 3 1 (lm_idx 1 1)
    ∧ plmTable 3 1 (lm_idx 2 1)
        = plm_a 2 1 * Real.cos 1 * plmTable 3 1 (lm_idx 1 1)
    ∧ plmTable 3 1 (lm_idx 2 0)
        = plm_a 2 0 * Real.cos 1 * plmTable 3 1 (lm_idx 1 0)
          - plm_b 2 0 * plmTable 3 1 (lm_idx 0 0)
    ∧ plm_b 3 2 = 0 := by
  have h := C1_plm_foid 3 1
  refine ⟨h.1, h.2.1 (by norm_num), ?_, ?_, ?_,
    h.2.2.2.2.2 3 2 (by norm_num)⟩
  · have h3 := h.2.2.1 2 (by norm_num) (by norm_num)
    simpa using h3
  · have h4 := h.2.2.2.1 1 (by norm_num)
    simpa using h4
  · have h5 := h.2.2.2.2.1 0 2 (by norm_num) (by norm_num)
    simpa using h5

/-! ### First co-latitude derivatives of the ALFs

When derivatives are requested, `Plm::Plm` fills `_dPlm` after `_Plm` is
complete: sectorial terms `(m,m)` for `m = 0..l_max`, then sub-diagonal terms
`(l,m)` for `l = 1..l_max`, `m < l`.  Both passes read only the finished
`_Plm` array. -/

/-- `f[lm_idx(l,m)] = sqrt((l·l − m·m)(2l+1)/(2l−1))`. -/
noncomputable def plm_f (l m : ℕ) : ℝ :=
  Real.sqrt (((l : ℝ) * l - (m : ℝ) * m) * (2 * (l : ℝ) + 1)
    / (2 * (l : ℝ) - 1))

/-- Sectorial derivative write `_dPlm[lm_idx(m,m)] = m*t/u*_Plm[lm_idx(m,m)]`. -/
noncomputable def dplmDiagW (L : ℕ) (θ : ℝ) (m : ℕ) : Wr :=
  ⟨lm_idx m m, fun _ =>
    (m : ℝ) * Real.cos θ / Real.sin θ * plmTable L θ (lm_idx m m)⟩

/-- Sub-diagonal derivative write
`_dPlm[lm_idx(l,m)] = 1/u*(l*t*_Plm[lm_idx(l,m)] − f*_Plm[lm_idx(l-1,m)])`. -/
noncomputable def dplmSubW (L : ℕ) (θ : ℝ) (l m : ℕ) : Wr :=
  ⟨lm_idx l m, fun _ =>
    1 / Real.sin θ * ((l : ℝ) * Real.cos θ * plmTable L θ (lm_idx l m)
      - plm_f l m * plmTable L θ (lm_idx (l - 1) m))⟩

noncomputable def dplmWrites (L : ℕ) (θ : ℝ) : List Wr :=
  (List.range (L + 1)).map (dplmDiagW L θ)
    ++ (List.range' 1 L).flatMap fun l => (List.range l).map (dplmSubW L θ l)

/-- The `_dPlm` array of `Plm(l_max = L, theta = θ, derivatives = true)`. -/
noncomputable def dplmTable (L : ℕ) (θ : ℝ) : ℕ → ℝ :=
  runW (dplmWrites L θ) fun _ => 0

/-- Getter `Plm::get_dPlm_bar`. -/
noncomputable def get_dPlm_bar (L : ℕ) (θ : ℝ) (l m : ℕ) : ℝ :=
  dplmTable L θ (lm_idx l m)

/-- Getter `Plm::get_dPlm` (divides by the owned normalization entry). -/
noncomputable def get_dPlm (L : ℕ) (θ : ℝ) (l m : ℕ) : ℝ :=
  dplmTable L θ (lm_idx l m) / nlmTable L (lm_idx l m)

theorem dplm_at_00 (L : ℕ) (θ : ℝ) : dplmTable L θ (lm_idx 0 0) = 0 := by
  have hsplit : List.range (L + 1)
      = List.range 0 ++ 0 :: List.range' 1 L := by
    have h := range_split (n := L + 1) (i := 0) (by omega)
    simpa using h
  have hdec : dplmWrites L θ
      = [] ++ dplmDiagW L θ 0
        :: ((List.range' 1 L).map (dplmDiagW L θ)
          ++ (List.range' 1 L).flatMap
            fun l => (List.range l).map (dplmSubW L θ l)) := by
    unfold dplmWrites
    rw [hsplit, List.map_append, List.map_cons]
    simp [List.append_assoc]
  have hside : ∀ w ∈ (List.range' 1 L).map (dplmDiagW L θ)
      ++ ((List.range' 1 L).flatMap
        fun l => (List.range l).map (dplmSubW L θ l)),
      w.tgt ≠ lm_idx 0 0 := by
    intro w hw
    rcases List.mem_append.mp hw with h | h
    · obtain ⟨i, hi1, hi2, rfl⟩ := mem_map_range' h
      exact lm_idx_ne le_rfl le_rfl (by omega)
    · obtain ⟨l2, hl2, hw2⟩ := List.mem_flatMap.mp h
      obtain ⟨j2, hj2, hje⟩ := List.mem_range'.mp hl2
      obtain ⟨m2, hm2, he⟩ := List.mem_map.mp hw2
      have hm2lt := List.mem_range.mp hm2
      subst he
      exact lm_idx_ne (by omega) le_rfl (by omega)
  have hval : dplmTable L θ (lm_idx 0 0)
      = ((0 : ℕ) : ℝ) * Real.cos θ / Real.sin θ
        * plmTable L θ (lm_idx 0 0) := by
    show runW (dplmWrites L θ) (fun _ => 0) (lm_idx 0 0) = _
    rw [hdec]
    exact runW_last [] (dplmDiagW L θ 0) _ (fun _ => 0) hside
  rw [hval]
  simp

/-- Claim C10: for every co-latitude with `sin θ ≠ 0` and every `l_max ≥ 0`,
an engine built with first derivatives returns `get_dPlm_bar(0,0) = 0` (the
sectorial derivative formula `m·t/u·value(m,m)` vanishes at `m = 0`), and
hence `get_dPlm(0,0) = 0`. -/
theorem C10_dPlm_origin (L : ℕ) (θ : ℝ) (_h : Real.sin θ ≠ 0) :
    get_dPlm_bar L θ 0 0 = 0 ∧ get_dPlm L θ 0 0 = 0 := by
  constructor
  · exact dplm_at_00 L θ
  · unfold get_dPlm
    rw [dplm_at_00 L θ]
    exact zero_div _

/-- Witness for C10 at `l_max = 5`, `θ = π/2`. -/
theorem C10_witness :
    Real.sin (Real.pi / 2) ≠ 0
      ∧ get_dPlm_bar 5 (Real.pi / 2) 0 0 = 0
      ∧ get_dPlm 5 (Real.pi / 2) 0 0 = 0 := by
  have hs : Real.sin (Real.pi / 2) ≠ 0 := by
    rw [Real.sin_pi_div_two]
    norm_num
  exact ⟨hs, (C10_dPlm_origin 5 _ hs).1, (C10_dPlm_origin 5 _ hs).2⟩

/-! ### HarmonicAnalysisEngine (`Flmp`): spectrum-to-storage mapping

For each `(l, m)`, `Flmp::Flmp` computes Fourier coefficients
`C[i] = 2*Re(y[i])/N`, `S[i] = -2*Im(y[i])/N` from the external `rfft`
(modelled as black-box inputs `C`, `S`) and maps them into the degree-`l`
block of `_Flmp` starting at offset `lm`: first the unconditional
even-degree write of `±C[0]` at slot `l/2`, then the parity loop over
`i = 0..l`. -/

/-- The unconditional even-degree write
`_Flmp[lm + l/2] = m % 2 == 0 ? C[0] : -C[0]`. -/
noncomputable def flmpPreW (lmOff l m : ℕ) (C : ℕ → ℝ) : Wr :=
  ⟨lmOff + l / 2, fun _ => if m % 2 = 0 then C 0 else -C 0⟩

/-- Parity-matched loop body (`l % 2 == m % 2` branch), iteration `i`. -/
noncomputable def flmpPairW (lmOff l : ℕ) (C S : ℕ → ℝ) (i : ℕ) : List Wr :=
  if i % 2 = l % 2 then
    [⟨lmOff + (l - i) / 2, fun _ => (C i + S i) / 2⟩,
     ⟨lmOff + (l + i) / 2, fun _ => (C i - S i) / 2⟩]
  else []

/-- Parity-mismatched loop body (`else` branch), iteration `i`. -/
noncomputable def flmpPairW2 (lmOff l : ℕ) (C S : ℕ → ℝ) (i : ℕ) : List Wr :=
  if i % 2 = l % 2 then
    [⟨lmOff + (l + i) / 2, fun _ => -(C i + S i) / 2⟩,
     ⟨lmOff + (l - i) / 2, fun _ => -(C i - S i) / 2⟩]
  else []

noncomputable def flmpMapWrites (l m lmOff : ℕ) (C S : ℕ → ℝ) : List Wr :=
  (if l % 2 = 0 then [flmpPreW lmOff l m C] else [])
    ++ (if l % 2 = m % 2 then
          (List.range (l + 1)).flatMap (flmpPairW lmOff l C S)
        else
          (List.range (l + 1)).flatMap (flmpPairW2 lmOff l C S))

/-- The storage after the `(l, m)` mapping step, given the storage before. -/
noncomputable def flmpMapStep (l m lmOff : ℕ) (C S : ℕ → ℝ) (s : ℕ → ℝ) :
    ℕ → ℝ :=
  runW (flmpMapWrites l m lmOff C S) s

theorem flmpPairW_tgt {lmOff l : ℕ} {C S : ℕ → ℝ} {i : ℕ} {w : Wr}
    (h : w ∈ flmpPairW lmOff l C S i) :
    i % 2 = l % 2
      ∧ (w.tgt = lmOff + (l - i) / 2 ∨ w.tgt = lmOff + (l + i) / 2) := by
  unfold flmpPairW at h
  split_ifs at h with hp
  · rcases List.mem_cons.mp h with rfl | h
    · exact ⟨hp, Or.inl rfl⟩
    · rcases List.mem_singleton.mp h with rfl
      exact ⟨hp, Or.inr rfl⟩
  · exact absurd h (List.not_mem_nil w)

theorem flmpPairW2_tgt {lmOff l : ℕ} {C S : ℕ → ℝ} {i : ℕ} {w : Wr}
    (h : w ∈ flmpPairW2 lmOff l C S i) :
    i % 2 = l % 2
      ∧ (w.tgt = lmOff + (l - i) / 2 ∨ w.tgt = lmOff + (l + i) / 2) := by
  unfold flmpPairW2 at h
  split_ifs at h with hp
  · rcases List.mem_cons.mp h with rfl | h
    · exact ⟨hp, Or.inr rfl⟩
    · rcases List.mem_singleton.mp h with rfl
      exact ⟨hp, Or.inl rfl⟩
  · exact absurd h (List.not_mem_nil w)

/-- After the mapping step for an even degree `l`, slot `l/2` holds
`(C0 − S0)/2` (sign flipped when `m` is odd): the `i = 0` iteration of the
parity loop overwrites the unconditional `±C0` write, and no later iteration
touches slot `l/2`. -/
theorem flmpMap_even_slot (l m lmOff : ℕ) (C S : ℕ → ℝ) (s : ℕ → ℝ)
    (hl : l % 2 = 0) :
    flmpMapStep l m lmOff C S s (lmOff + l / 2)
      = if m % 2 = 0 then (C 0 - S 0) / 2 else -(C 0 - S 0) / 2 := by
  have hr : List.range (l + 1) = 0 :: List.range' 1 l := by
    rw [List.range_eq_range']
    exact List.range'_succ 0 l 1
  unfold flmpMapStep flmpMapWrites
  rw [if_pos hl]
  by_cases hm : m % 2 = 0
  · rw [if_pos (by omega : l % 2 = m % 2), if_pos hm, hr, List.flatMap_cons]
    have h0 : flmpPairW lmOff l C S 0
        = [⟨lmOff + (l - 0) / 2, fun _ => (C 0 + S 0) / 2⟩,
           ⟨lmOff + (l + 0) / 2, fun _ => (C 0 - S 0) / 2⟩] := by
      unfold flmpPairW
      rw [if_pos (by omega)]
    rw [h0]
    have hside : ∀ w ∈ (List.range' 1 l).flatMap (flmpPairW lmOff l C S),
        w.tgt ≠ lmOff + l / 2 := by
      intro w hw
      obtain ⟨i, hi, hwi⟩ := List.mem_flatMap.mp hw
      obtain ⟨j, hj, hji⟩ := List.mem_range'.mp hi
      obtain ⟨hp, htgt | htgt⟩ := flmpPairW_tgt hwi
      · rw [htgt]
        omega
      · rw [htgt]
        omega
    have hsh : [flmpPreW lmOff l m C]
        ++ ([⟨lmOff + (l - 0) / 2, fun _ => (C 0 + S 0) / 2⟩,
             (⟨lmOff + (l + 0) / 2, fun _ => (C 0 - S 0) / 2⟩ : Wr)]
          ++ (List.range' 1 l).flatMap (flmpPairW lmOff l C S))
        = [flmpPreW lmOff l m C,
           ⟨lmOff + (l - 0) / 2, fun _ => (C 0 + S 0) / 2⟩]
          ++ (⟨lmOff + (l + 0) / 2, fun _ => (C 0 - S 0) / 2⟩ : Wr)
            :: (List.range' 1 l).flatMap (flmpPairW lmOff l C S) := by
      simp
    rw [hsh]
    exact runW_last _ (⟨lmOff + (l + 0) / 2, fun _ => (C 0 - S 0) / 2⟩ : Wr)
      _ s hside
  · rw [if_neg (by omega : ¬ l % 2 = m % 2), if_neg hm, hr, List.flatMap_cons]
    have h0 : flmpPairW2 lmOff l C S 0
        = [⟨lmOff + (l + 0) / 2, fun _ => -(C 0 + S 0) / 2⟩,
           ⟨lmOff + (l - 0) / 2, fun _ => -(C 0 - S 0) / 2⟩] := by
      unfold flmpPairW2
      rw [if_pos (by omega)]
    rw [h0]
    have hside : ∀ w ∈ (List.range' 1 l).flatMap (flmpPairW2 lmOff l C S),
        w.tgt ≠ lmOff + l / 2 := by
      intro w hw
      obtain ⟨i, hi, hwi⟩ := List.mem_flatMap.mp hw
      obtain ⟨j, hj, hji⟩ := List.mem_range'.mp hi
      obtain ⟨hp, htgt | htgt⟩ := flmpPairW2_tgt hwi
      · rw [htgt]
        omega
      · rw [htgt]
        omega
    have hsh : [flmpPreW lmOff l m C]
        ++ ([⟨lmOff + (l + 0) / 2, fun _ => -(C 0 + S 0) / 2⟩,
             (⟨lmOff + (l - 0) / 2, fun _ => -(C 0 - S 0) / 2⟩ : Wr)]
          ++ (List.range' 1 l).flatMap (flmpPairW2 lmOff l C S))
        = [flmpPreW lmOff l m C,
           ⟨lmOff + (l + 0) / 2, fun _ => -(C 0 + S 0) / 2⟩]
          ++ (⟨lmOff + (l - 0) / 2, fun _ => -(C 0 - S 0) / 2⟩ : Wr)
            :: (List.range' 1 l).flatMap (flmpPairW2 lmOff l C S) := by
      simp
    rw [hsh]
    have hlast := runW_last
      ([flmpPreW lmOff l m C,
        ⟨lmOff + (l + 0) / 2, fun _ => -(C 0 + S 0) / 2⟩])
      (⟨lmOff + (l - 0) / 2, fun _ => -(C 0 - S 0) / 2⟩ : Wr)
      ((List.range' 1 l).flatMap (flmpPairW2 lmOff l C S)) s hside
    exact hlast

/-- Claim C2 (amended): in the mapping of Fourier coefficients into the
packed p-indexed storage, for every `(l, m)` with `l` even, after the mapping
for that `(l, m)` completes the slot at `p = l/2` holds `(C0 − S0)/2` when `m`
is even and `−(C0 − S0)/2` when `m` is odd (with `S0 = 0` for the DC bin of a
real-input DFT this is `C0/2` resp. `−C0/2`): the unconditional `±C0` write is
overwritten by the `i = 0` iteration of the parity loop. -/
theorem C2_flmp_dc_slot (l m lmOff : ℕ) (C S : ℕ → ℝ) (s : ℕ → ℝ)
    (hl : l % 2 = 0) :
    flmpMapStep l m lmOff C S s (lmOff + l / 2)
      = if m % 2 = 0 then (C 0 - S 0) / 2 else -(C 0 - S 0) / 2 :=
  flmpMap_even_slot l m lmOff C S s hl

/-- Counterexample to claim C2 as stated: for `(l, m) = (0, 0)` with `C0 = 2`,
`S0 = 0` (exactly what the engine produces there, since the sampled signal is
identically 1), the slot at `p = 0` ends up holding `1 = C0/2`, not `C0 = 2`. -/
theorem C2_counterexample :
    flmpMapStep 0 0 0 (fun _ => 2) (fun _ => 0) (fun _ => 0) 0 ≠ 2 := by
  have h := flmpMap_even_slot 0 0 0 (fun _ => 2) (fun _ => 0) (fun _ => 0) rfl
  norm_num at h
  rw [h]
  norm_num

/-- Witness for C2 at `l = 2`, `m = 1` (odd order, sign flip). -/
theorem C2_witness :
    (2 : ℕ) % 2 = 0
      ∧ flmpMapStep 2 1 0 (fun _ => 3) (fun _ => 1) (fun _ => 0) 1 = -1 := by
  refine ⟨rfl, ?_⟩
  have h := C2_flmp_dc_slot 2 1 0 (fun _ => 3) (fun _ => 1) (fun _ => 0) rfl
  norm_num at h
  exact h

/-! ### HarmonicAnalysisEngine getters -/

/-- A constructed `Flmp` engine: maximum degree, inclination, and the two
owned coefficient arrays `_Flmp` and `_dFlmp`. -/
structure Flmp where
  l_max : ℕ
  I : ℝ
  F : ℕ → ℝ
  dF : ℕ → ℝ

/-- `Flmp::lmk_idx(l,m,k) = lmp_idx(l, m, (l-k)/2)`; used by the getters only
under the guard `|k| ≤ l`, where `l - k ≥ 0` and C++ `int` division agrees
with truncated natural division. -/
def lmk_idx (l m : ℕ) (k : ℤ) : ℕ := lmp_idx l m (((l : ℤ) - k).toNat / 2)

/-- Getter `Flmp::get_Flmp`. -/
def Flmp.get_Flmp (f : Flmp) (l m p : ℕ) : ℝ := f.F (lmp_idx l m p)

/-- Getter `Flmp::get_Flmk`: `abs(k) > l ? 0 : _Flmp[lmk_idx(l,m,k)]`. -/
def Flmp.get_Flmk (f : Flmp) (l m : ℕ) (k : ℤ) : ℝ :=
  if l < k.natAbs then 0 else f.F (lmk_idx l m k)

/-- Getter `Flmp::get_dFlmp`. -/
def Flmp.get_dFlmp (f : Flmp) (l m p : ℕ) : ℝ := f.dF (lmp_idx l m p)

/-- Getter `Flmp::get_dFlmk`: `abs(k) > l ? 0 : _dFlmp[lmk_idx(l,m,k)]`. -/
def Flmp.get_dFlmk (f : Flmp) (l m : ℕ) (k : ℤ) : ℝ :=
  if l < k.natAbs then 0 else f.dF (lmk_idx l m k)

/-- Getter `Flmp::get_Flmk_star` (cross-track combination), verbatim from the
source. -/
noncomputable def Flmp.get_Flmk_star (f : Flmp) (l m : ℕ) (k : ℤ) : ℝ :=
  0.5 * ((((k : ℝ) - 1) * Real.cos f.I - (m : ℝ)) / Real.sin f.I
        * f.get_Flmk l m (k - 1)
      + (((k : ℝ) + 1) * Real.cos f.I - (m : ℝ)) / Real.sin f.I
        * f.get_Flmk l m (k + 1)
      + -f.get_dFlmk l m (k - 1)
      + f.get_dFlmk l m (k + 1))

/-- Claim C6: for every constructed engine and valid `(l, m)` with
`0 ≤ m ≤ l ≤ l_max`, `get_Flmk(l,m,k)` and `get_dFlmk(l,m,k)` return exactly
`0` for every `k` with `|k| > l` — a defined boundary policy, not an error. -/
theorem C6_flmk_boundary (f : Flmp) (l m : ℕ) (k : ℤ)
    (_hm : m ≤ l) (_hl : l ≤ f.l_max) (hk : l < k.natAbs) :
    f.get_Flmk l m k = 0 ∧ f.get_dFlmk l m k = 0 := by
  unfold Flmp.get_Flmk Flmp.get_dFlmk
  rw [if_pos hk, if_pos hk]
  exact ⟨rfl, rfl⟩

/-- Witness for C6 at `(l, m, k) = (1, 1, 5)` on an engine with nonzero
stored coefficients. -/
theorem C6_witness :
    (1 : ℕ) < (5 : ℤ).natAbs
      ∧ Flmp.get_Flmk ⟨5, 0, (fun _ => 37), fun _ => 37⟩ 1 1 5 = 0
      ∧ Flmp.get_dFlmk ⟨5, 0, (fun _ => 37), fun _ => 37⟩ 1 1 5 = 0 := by
  have h := C6_flmk_boundary ⟨5, 0, (fun _ => 37), fun _ => 37⟩ 1 1 5
    le_rfl (by norm_num) (by norm_num)
  exact ⟨by norm_num, h.1, h.2⟩

/-- Claim C7: for every constructed engine with derivatives and every
`(l, m, k)` with `0 ≤ m ≤ l ≤ l_max`, `get_Flmk_star(l,m,k)` equals
`½·[((k−1)cos I − m)/sin I · Flmk(l,m,k−1) + ((k+1)cos I − m)/sin I ·
Flmk(l,m,k+1) − dFlmk(l,m,k−1) + dFlmk(l,m,k+1)]`. -/
theorem C7_flmk_star (f : Flmp) (l m : ℕ) (k : ℤ)
    (_hm : m ≤ l) (_hl : l ≤ f.l_max) :
    f.get_Flmk_star l m k
      = 1 / 2 * ((((k : ℝ) - 1) * Real.cos f.I - (m : ℝ)) / Real.sin f.I
            * f.get_Flmk l m (k - 1)
          + (((k : ℝ) + 1) * Real.cos f.I - (m : ℝ)) / Real.sin f.I
            * f.get_Flmk l m (k + 1)
          - f.get_dFlmk l m (k - 1)
          + f.get_dFlmk l m (k + 1)) := by
  unfold Flmp.get_Flmk_star
  norm_num
  ring

/-- Witness for C7 at `(l, m, k) = (2, 1, 0)`. -/
theorem C7_witness :
    Flmp.get_Flmk_star ⟨3, 1, (fun _ => 7), fun _ => 11⟩ 2 1 0
      = 1 / 2 * ((((0 : ℝ) - 1) * Real.cos 1 - 1) / Real.sin 1
            * Flmp.get_Flmk ⟨3, 1, (fun _ => 7), fun _ => 11⟩ 2 1 (0 - 1)
          + (((0 : ℝ) + 1) * Real.cos 1 - 1) / Real.sin 1
            * Flmp.get_Flmk ⟨3, 1, (fun _ => 7), fun _ => 11⟩ 2 1 (0 + 1)
          - Flmp.get_dFlmk ⟨3, 1, (fun _ => 7), fun _ => 11⟩ 2 1 (0 - 1)
          + Flmp.get_dFlmk ⟨3, 1, (fun _ => 7), fun _ => 11⟩ 2 1 (0 + 1)) := by
  have h := C7_flmk_star ⟨3, 1, (fun _ => 7), fun _ => 11⟩ 2 1 0
    (by norm_num) (by norm_num)
  simpa using h

/-- Claim C9 (implicit): for `|k| > l + 1` and `sin I ≠ 0`,
`get_Flmk_star(l,m,k)` returns exactly `0`, because all four constituent
getter calls fall under the `|k| > l` boundary policy. -/
theorem C9_flmk_star_boundary (f : Flmp) (l m : ℕ) (k : ℤ)
    (_hs : Real.sin f.I ≠ 0) (hk : l + 1 < k.natAbs) :
    f.get_Flmk_star l m k = 0 := by
  have h1 : l < (k - 1).natAbs := by omega
  have h2 : l < (k + 1).natAbs := by omega
  unfold Flmp.get_Flmk_star Flmp.get_Flmk Flmp.get_dFlmk
  rw [if_pos h1, if_pos h2, if_pos h1, if_pos h2]
  ring

/-- Witness for C9 at `(l, m, k) = (1, 0, 9)`, inclination `π/2`. -/
theorem C9_witness :
    Real.sin (Real.pi / 2) ≠ 0
      ∧ (1 : ℕ) + 1 < (9 : ℤ).natAbs
      ∧ Flmp.get_Flmk_star ⟨3, Real.pi / 2, (fun _ => 7), fun _ => 11⟩ 1 0 9
          = 0 := by
  have hs : Real.sin (Real.pi / 2) ≠ 0 := by
    rw [Real.sin_pi_div_two]
    norm_num
  exact ⟨hs, by norm_num,
    C9_flmk_star_boundary ⟨3, Real.pi / 2, (fun _ => 7), fun _ => 11⟩ 1 0 9 hs
      (by norm_num)⟩

/-! ### Copy semantics (claim C8)

The source copy operations contain genuine slips: `Plm::Plm(const Plm&)`
initialises `l_max` from itself (`l_max(l_max)`, an uninitialised read),
`Flmp::operator=` has `_Flmp == nullptr;` (a comparison, not an assignment)
in its else-branch, and both `Flmp` copy operations skip copying the owned
array whenever `other.l_max > 0` fails — even though `Flmp(0, I)` is a valid
engine owning a one-entry array.  We model the last, deterministic defect:
the arrays as nullable values. -/

/-- Memory-level model of an `Flmp` object: the owned arrays are raw
pointers, possibly null. -/
structure FlmpMem where
  l_max : ℕ
  I : ℝ
  F : Option (ℕ → ℝ)
  dF : Option (ℕ → ℝ)

/-- The copy constructor `Flmp::Flmp(const Flmp&)`: members start null and an
array is copied only when the source pointer is non-null and
`other.l_max > 0`. -/
def FlmpMem.copyCtor (o : FlmpMem) : FlmpMem :=
  { l_max := o.l_max
    I := o.I
    F := if o.F.isSome ∧ 0 < o.l_max then o.F else none
    dF := if o.dF.isSome ∧ 0 < o.l_max then o.dF else none }

/-- Claim C8 fails on the code: copy-constructing from an engine built with
`l_max = 0` (valid; it owns a one-entry array holding `F(0,0,0)`) produces a
copy whose `_Flmp` is null, so the copy's getters dereference a null pointer
instead of returning the source's values. -/
theorem C8_copy_drops_storage :
    (FlmpMem.copyCtor ⟨0, 0, some (fun _ => 1), none⟩).F = none
      ∧ (⟨0, 0, some (fun _ => 1), none⟩ : FlmpMem).F ≠ none := by
  constructor
  · unfold FlmpMem.copyCtor
    rw [if_neg (by simp)]
  · simp

end Functions
